import Mathlib

/-!
Verification development for the AlgoforceAnalytics equity-curve and
metrics pipeline.

The Python source is shallowly embedded over exact rationals (`ℚ`):

* a DataFrame row indexed by account name is a total function
  `String → ℚ` (a Python `dict.get(key, 0.0)` read is a total map with
  default `0`);
* a date-indexed DataFrame is a `List` of rows, list position = day;
* timestamps are integer seconds, day buckets are `ts / 86400`
  (floored), mirroring pandas `resample("D")`;
* `float` arithmetic is modelled exactly on `ℚ` except where a claim is
  specifically about IEEE special values, where the small carrier
  `FVal` (finite / NaN / +Inf / -Inf) is used.
-/

namespace AlgoforceAnalytics

/-- A frame row: account column name to value.  Total with default `0`,
matching `dict.get(a, 0.0)` reads in the source. -/
def Row : Type := String → ℚ

/-- Pointwise column write on a row (`row[a] = v`). -/
def updateRow (r : Row) (a : String) (v : ℚ) : Row :=
  fun x => if x = a then v else r x

@[simp]
theorem updateRow_same (r : Row) (a : String) (v : ℚ) : updateRow r a v a = v := by
  simp [updateRow]

@[simp]
theorem updateRow_other (r : Row) (a x : String) (v : ℚ) (h : x ≠ a) :
    updateRow r a v x = r x := by
  simp [updateRow, h]

/-- Column update across all rows (`out[a] = out[a] + c` in pandas adds a
constant to one column of every row). -/
def addConstCol (f : List Row) (a : String) (c : ℚ) : List Row :=
  f.map (fun r => updateRow r a (r a + c))

/-- Point write to one row of a frame (`frame.at[i, ·]`-style update).
Out-of-range indices leave the frame unchanged. -/
def modifyRowAt : List Row → ℕ → (Row → Row) → List Row
  | [], _, _ => []
  | r :: t, 0, g => g r :: t
  | r :: t, i + 1, g => r :: modifyRowAt t i g

@[simp]
theorem modifyRowAt_length (f : List Row) (i : ℕ) (g : Row → Row) :
    (modifyRowAt f i g).length = f.length := by
  induction f generalizing i with
  | nil => rfl
  | cons r t ih =>
    cases i with
    | zero => rfl
    | succ i => simp [modifyRowAt, ih]

theorem modifyRowAt_get?_same (f : List Row) (i : ℕ) (g : Row → Row) :
    (modifyRowAt f i g).get? i = (f.get? i).map g := by
  induction f generalizing i with
  | nil => rfl
  | cons r t ih =>
    cases i with
    | zero => rfl
    | succ i => simpa [modifyRowAt] using ih i

theorem modifyRowAt_get?_other (f : List Row) (i d : ℕ) (g : Row → Row)
    (h : d ≠ i) : (modifyRowAt f i g).get? d = f.get? d := by
  induction f generalizing i d with
  | nil => rfl
  | cons r t ih =>
    cases i with
    | zero =>
      cases d with
      | zero => exact absurd rfl h
      | succ d => rfl
    | succ i =>
      cases d with
      | zero => rfl
      | succ d =>
        simpa [modifyRowAt] using ih i d (fun hdi => h (by omega))

theorem modifyRowAt_comp (f : List Row) (i : ℕ) (g₁ g₂ : Row → Row) :
    modifyRowAt (modifyRowAt f i g₁) i g₂ = modifyRowAt f i (fun r => g₂ (g₁ r)) := by
  induction f generalizing i with
  | nil => rfl
  | cons r t ih =>
    cases i with
    | zero => rfl
    | succ i => simp [modifyRowAt, ih]

/-- Row-level image of the `for a in accounts: out[a] = out[a] + m[a]` loop. -/
def rowAdd (m : String → ℚ) (A : List String) (r : Row) : Row :=
  A.foldl (fun r a => updateRow r a (r a + m a)) r

theorem rowAdd_notMem (m : String → ℚ) (A : List String) (r : Row) (x : String)
    (hx : x ∉ A) : rowAdd m A r x = r x := by
  induction A generalizing r with
  | nil => rfl
  | cons a A ih =>
    have hxa : x ≠ a := fun h => hx (h ▸ List.mem_cons_self a A)
    have hxA : x ∉ A := fun h => hx (List.mem_cons_of_mem a h)
    simpa [rowAdd, List.foldl_cons] using
      (ih (updateRow r a (r a + m a)) hxA).trans (updateRow_other r a x _ hxa)

theorem rowAdd_mem (m : String → ℚ) (A : List String) (r : Row) (a : String)
    (hA : A.Nodup) (ha : a ∈ A) : rowAdd m A r a = r a + m a := by
  induction A generalizing r with
  | nil => exact absurd ha (List.not_mem_nil a)
  | cons b A ih =>
    rcases List.mem_cons.mp ha with h | h
    · subst h
      have hnot : a ∉ A := (List.nodup_cons.mp hA).1
      simpa [rowAdd, List.foldl_cons] using
        (rowAdd_notMem m A (updateRow r a (r a + m a)) a hnot).trans
          (updateRow_same r a (r a + m a))
    · have hab : a ≠ b := by
        rintro rfl
        exact (List.nodup_cons.mp hA).1 h
      have := ih (updateRow r b (r b + m b)) (List.nodup_cons.mp hA).2 h
      simpa [rowAdd, List.foldl_cons, updateRow_other r b a _ hab] using this

/-- The per-column baseline loop acts rowwise: folding `addConstCol`
over the account list maps `rowAdd` over every row. -/
theorem modifyRowAt_id (f : List Row) (i : ℕ) :
    modifyRowAt f i (fun r => r) = f := by
  induction f generalizing i with
  | nil => rfl
  | cons r t ih =>
    cases i with
    | zero => rfl
    | succ i => simp [modifyRowAt, ih]

theorem foldl_addConstCol (A : List String) (m : String → ℚ) (f : List Row) :
    A.foldl (fun f a => addConstCol f a (m a)) f = f.map (rowAdd m A) := by
  induction A generalizing f with
  | nil => exact (List.map_id' f).symm
  | cons a A ih =>
    calc (a :: A).foldl (fun f a => addConstCol f a (m a)) f
        = A.foldl (fun f a => addConstCol f a (m a))
            (f.map (fun r => updateRow r a (r a + m a))) := rfl
      _ = (f.map (fun r => updateRow r a (r a + m a))).map (rowAdd m A) := ih _
      _ = f.map (rowAdd m A ∘ fun r => updateRow r a (r a + m a)) := by
            rw [List.map_map]
      _ = f.map (rowAdd m (a :: A)) := rfl

/-- The last-row UPnL loop collapses to a single point write with `rowAdd`. -/
theorem foldl_modify_last (A : List String) (m : String → ℚ) (f : List Row) :
    A.foldl
      (fun f a => modifyRowAt f (f.length - 1) (fun r => updateRow r a (r a + m a))) f
    = modifyRowAt f (f.length - 1) (rowAdd m A) := by
  induction A generalizing f with
  | nil =>
    show f = modifyRowAt f (f.length - 1) (fun r => r)
    exact (modifyRowAt_id f (f.length - 1)).symm
  | cons a A ih =>
    calc (a :: A).foldl
          (fun f a => modifyRowAt f (f.length - 1) (fun r => updateRow r a (r a + m a))) f
        = A.foldl
            (fun f a => modifyRowAt f (f.length - 1) (fun r => updateRow r a (r a + m a)))
            (modifyRowAt f (f.length - 1) (fun r => updateRow r a (r a + m a))) := rfl
      _ = modifyRowAt (modifyRowAt f (f.length - 1) (fun r => updateRow r a (r a + m a)))
            (f.length - 1) (rowAdd m A) := by
            rw [ih]
            simp
      _ = modifyRowAt f (f.length - 1) (rowAdd m (a :: A)) := by
            rw [modifyRowAt_comp]
            rfl

/-- Embedding of `build_margin_series`
(api/metrics/performance_metrics/calculations/equity.py, lines 74-90):
margin = realized + constant per-account baseline (`unrealized_map`),
then UPnL (`upnl_map`) injected on the last row only.
`_coerce_float` is the identity on the finite values modelled here. -/
def buildMarginSeries (fixedBalances : List Row)
    (unrealizedMap upnlMap : String → ℚ) (accounts : List String) : List Row :=
  match fixedBalances with
  | [] => []  -- if fixed_balances.empty: return fixed_balances
  | _ :: _ =>
    -- out = fixed_balances.copy(); for a in accounts: out[a] = out[a] + unrealized_map.get(a, 0.0)
    let out := accounts.foldl (fun f a => addConstCol f a (unrealizedMap a)) fixedBalances
    -- last = out.index[-1]; for a in accounts: out.at[last, a] = out.at[last, a] + upnl_map.get(a, 0.0)
    accounts.foldl
      (fun f a => modifyRowAt f (f.length - 1) (fun r => updateRow r a (r a + upnlMap a)))
      out

/-- Normal form of `build_margin_series` on a non-empty frame: baseline
offsets rowwise, then one point write of the UPnL loop on the last row. -/
theorem buildMarginSeries_eq (R : List Row) (B U : String → ℚ) (A : List String)
    (h : R ≠ []) :
    buildMarginSeries R B U A
      = modifyRowAt (R.map (rowAdd B A)) (R.length - 1) (rowAdd U A) := by
  match R with
  | [] => exact absurd rfl h
  | r :: t =>
    show (A.foldl
        (fun f a => modifyRowAt f (f.length - 1) (fun r => updateRow r a (r a + U a)))
        (A.foldl (fun f a => addConstCol f a (B a)) (r :: t)))
      = modifyRowAt ((r :: t).map (rowAdd B A)) ((r :: t).length - 1) (rowAdd U A)
    rw [foldl_addConstCol, foldl_modify_last]
    simp

/-- C1: in `build_margin_series`, every row strictly before the last
satisfies `margin[d][a] = realized[d][a] + baseline[a]`, and the last row
satisfies `margin[last][a] = realized[last][a] + baseline[a] + upnl[a]`;
live PnL is never added to any non-final row. -/
theorem margin_series_baseline_and_live_rows
    (R : List Row) (B U : String → ℚ) (A : List String)
    (hA : A.Nodup) (a : String) (ha : a ∈ A) :
    (∀ d : ℕ, d + 1 < R.length →
      ((buildMarginSeries R B U A).get? d).map (fun r => r a)
        = (R.get? d).map (fun r => r a + B a)) ∧
    (R ≠ [] →
      ((buildMarginSeries R B U A).get? (R.length - 1)).map (fun r => r a)
        = (R.get? (R.length - 1)).map (fun r => r a + B a + U a)) := by
  constructor
  · intro d hd
    have hR : R ≠ [] := by
      intro h
      rw [h] at hd
      simp at hd
    rw [buildMarginSeries_eq R B U A hR,
      modifyRowAt_get?_other _ _ _ _ (by omega), List.get?_map]
    cases hr : R.get? d with
    | none => rfl
    | some r => simp [rowAdd_mem B A r a hA ha]
  · intro hR
    rw [buildMarginSeries_eq R B U A hR, modifyRowAt_get?_same, List.get?_map]
    cases hr : R.get? (R.length - 1) with
    | none => rfl
    | some r =>
      simp [rowAdd_mem U A (rowAdd B A r) a hA ha, rowAdd_mem B A r a hA ha]

/-- Concrete instantiation of `margin_series_baseline_and_live_rows`: a
two-day series for account "fund2" with baseline 7 and live UPnL 25. -/
theorem margin_series_baseline_and_live_rows_witness :
    ((buildMarginSeries [fun _ => 100, fun _ => 110]
        (fun _ => 7) (fun _ => 25) ["fund2"]).get? 0).map (fun r => r "fund2")
      = some (100 + 7) ∧
    ((buildMarginSeries [fun _ => 100, fun _ => 110]
        (fun _ => 7) (fun _ => 25) ["fund2"]).get? 1).map (fun r => r "fund2")
      = some (110 + 7 + 25) := by
  have h := margin_series_baseline_and_live_rows
    [fun _ => 100, fun _ => 110] (fun _ => 7) (fun _ => 25) ["fund2"]
    (List.nodup_singleton "fund2") "fund2" (List.mem_singleton.mpr rfl)
  exact ⟨h.1 0 (by norm_num), h.2 (by simp)⟩

/-- Embedding of `_inject_upnl_last_row`
(api/metrics/performance_metrics/performance_metrics.py, lines 135-147):
copy the levels frame and increment each account's last-row entry by its
UPnL.  The `a in out.columns` guard is vacuous here because rows are
total maps. -/
def injectUpnlLastRow (levels : List Row) (upMap : String → ℚ)
    (accounts : List String) : List Row :=
  match levels with
  | [] => []  -- if levels.empty: return levels
  | _ :: _ =>
    accounts.foldl
      (fun f a => modifyRowAt f (f.length - 1) (fun r => updateRow r a (r a + upMap a)))
      levels

/-- State-tracking embedding of `build_margin_series` for the frame-effect
claim: the first component is the returned margin frame, the second is
the caller's `fixed_balances` object as it stands after the call.  The
body writes only to `out = fixed_balances.copy()`, so the second
component is the unmodified input (had the source aliased instead of
copied, the writes would land on the input here). -/
def buildMarginSeriesTracked (fixedBalances : List Row)
    (unrealizedMap upnlMap : String → ℚ) (accounts : List String) :
    List Row × List Row :=
  match fixedBalances with
  | [] => ([], fixedBalances)
  | _ :: _ =>
    let out := fixedBalances  -- fixed_balances.copy(): a fresh object with equal contents
    let out := accounts.foldl (fun f a => addConstCol f a (unrealizedMap a)) out
    let out := accounts.foldl
      (fun f a => modifyRowAt f (f.length - 1) (fun r => updateRow r a (r a + upnlMap a)))
      out
    (out, fixedBalances)

/-- State-tracking embedding of `_inject_upnl_last_row`, same convention
as `buildMarginSeriesTracked`: writes go to `out = levels.copy()`. -/
def injectUpnlLastRowTracked (levels : List Row) (upMap : String → ℚ)
    (accounts : List String) : List Row × List Row :=
  match levels with
  | [] => ([], levels)
  | _ :: _ =>
    let out := levels  -- levels.copy()
    let out := accounts.foldl
      (fun f a => modifyRowAt f (f.length - 1) (fun r => updateRow r a (r a + upMap a)))
      out
    (out, levels)

/-- C10: building the margin view (baseline offset plus last-row live-PnL
injection) operates on a copy: after the call every row and column of the
input realized series equals its value before the call, both for
`build_margin_series` and for `_inject_upnl_last_row`, while the first
component is the usual margin result. -/
theorem margin_build_leaves_input_unchanged
    (R L : List Row) (B U up : String → ℚ) (A : List String) :
    (∀ d : ℕ, ∀ x : String,
      (((buildMarginSeriesTracked R B U A).2.get? d).map (fun r => r x)
          = ((R.get? d).map (fun r => r x)) ∧
        ((injectUpnlLastRowTracked L up A).2.get? d).map (fun r => r x)
          = ((L.get? d).map (fun r => r x)))) ∧
    (buildMarginSeriesTracked R B U A).1 = buildMarginSeries R B U A ∧
    (injectUpnlLastRowTracked L up A).1 = injectUpnlLastRow L up A := by
  refine ⟨fun d x => ⟨?_, ?_⟩, ?_, ?_⟩
  · cases R with
    | nil => rfl
    | cons r t => rfl
  · cases L with
    | nil => rfl
    | cons r t => rfl
  · cases R with
    | nil => rfl
    | cons r t => rfl
  · cases L with
    | nil => rfl
    | cons r t => rfl

/-- Association list `{a: g a for a in cols}` for the serialized output
of one frame row. -/
def keyedCols (g : String → ℚ) (cols : List String) : List (String × ℚ) :=
  cols.map (fun a => (a, g a))

/-- One serialized row: the per-account entries followed by a `"total"`
entry holding the sum of the per-account values
(`per["total"] = sum(per.values())`). -/
def rowWithTotal (g : String → ℚ) (cols : List String) : List (String × ℚ) :=
  keyedCols g cols ++ [("total", (cols.map g).sum)]

/-- Embedding of `_serialize_series`
(api/metrics/performance_metrics/performance_metrics.py, lines 68-78):
each row is serialized to its per-account entries plus a recomputed
`"total"`.  The `a in df.columns` filter is vacuous for total-map rows. -/
def serializeSeries (f : List Row) (accounts : List String) :
    List (List (String × ℚ)) :=
  f.map (fun r => rowWithTotal (fun a => r a) accounts)

/-- Embedding of `build_margin_last_day`
(api_test/utils/sql_balances.py, lines 226-240): one serialized row for
the last day with UPnL injected and `total` recomputed from the injected
per-account values. -/
def buildMarginLastDay (fixedBalances : List Row) (upnl : String → ℚ)
    (accounts : List String) : List (String × ℚ) :=
  match fixedBalances.getLast? with
  | none => []  -- if fixed_balances.empty: return an empty frame
  | some r => rowWithTotal (fun a => r a + upnl a) accounts

theorem lookup_keyedCols_notMem (g : String → ℚ) (cols : List String) (x : String)
    (hx : x ∉ cols) (rest : List (String × ℚ)) :
    List.lookup x (keyedCols g cols ++ rest) = List.lookup x rest := by
  induction cols with
  | nil => rfl
  | cons b cols ih =>
    have hxb : x ≠ b := fun h => hx (h ▸ List.mem_cons_self b cols)
    have hxc : x ∉ cols := fun h => hx (List.mem_cons_of_mem b h)
    have hb : (x == b) = false := beq_eq_false_iff_ne.mpr hxb
    simpa [keyedCols, List.lookup, hb] using ih hxc

theorem lookup_keyedCols_mem (g : String → ℚ) (cols : List String) (a : String)
    (ha : a ∈ cols) (rest : List (String × ℚ)) :
    List.lookup a (keyedCols g cols ++ rest) = some (g a) := by
  induction cols with
  | nil => exact absurd ha (List.not_mem_nil a)
  | cons b cols ih =>
    by_cases hab : a = b
    · subst hab
      simp [keyedCols, List.lookup]
    · rcases List.mem_cons.mp ha with h | h
      · exact absurd h hab
      · have hb : (a == b) = false := beq_eq_false_iff_ne.mpr hab
        simpa [keyedCols, List.lookup, hb] using ih h

theorem lookup_rowWithTotal_total (g : String → ℚ) (cols : List String)
    (ht : "total" ∉ cols) :
    List.lookup "total" (rowWithTotal g cols) = some ((cols.map g).sum) := by
  rw [rowWithTotal, lookup_keyedCols_notMem g cols "total" ht]
  simp [List.lookup]

theorem lookup_rowWithTotal_col (g : String → ℚ) (cols : List String) (a : String)
    (ha : a ∈ cols) :
    List.lookup a (rowWithTotal g cols) = some (g a) :=
  lookup_keyedCols_mem g cols a ha _

/-- C6: in every serialized equity row (realized or margin series, and
the margin-last-day row), the `"total"` entry equals the row-wise sum of
the named per-account entries of that same row, recomputed after any
injection — never an independently tracked running total. -/
theorem serialized_total_is_rowwise_sum
    (f : List Row) (A : List String) (up : String → ℚ)
    (_hA : A.Nodup) (ht : "total" ∉ A) :
    (∀ row ∈ serializeSeries f A,
      List.lookup "total" row
        = some ((A.map (fun a => (List.lookup a row).getD 0)).sum)) ∧
    (∀ r : Row, f.getLast? = some r →
      List.lookup "total" (buildMarginLastDay f up A)
        = some ((A.map
            (fun a => (List.lookup a (buildMarginLastDay f up A)).getD 0)).sum)) := by
  constructor
  · intro row hrow
    rcases List.mem_map.mp hrow with ⟨r, _, rfl⟩
    rw [lookup_rowWithTotal_total _ A ht]
    congr 1
    refine congrArg List.sum (List.map_congr_left fun a ha => ?_)
    rw [lookup_rowWithTotal_col _ A a ha]
    rfl
  · intro r hr
    unfold buildMarginLastDay
    rw [hr]
    rw [lookup_rowWithTotal_total _ A ht]
    congr 1
    refine congrArg List.sum (List.map_congr_left fun a ha => ?_)
    rw [lookup_rowWithTotal_col _ A a ha]
    rfl

/-- Concrete instantiation of `serialized_total_is_rowwise_sum` on a
one-row frame with accounts "fund2", "fund3". -/
theorem serialized_total_is_rowwise_sum_witness :
    (∀ row ∈ serializeSeries [fun _ => 3] ["fund2", "fund3"],
      List.lookup "total" row
        = some ((["fund2", "fund3"].map
            (fun a => (List.lookup a row).getD 0)).sum)) ∧
    List.lookup "total"
        (buildMarginLastDay [fun _ => 3] (fun _ => 2) ["fund2", "fund3"])
      = some (((["fund2", "fund3"]).map
          (fun a => (List.lookup a
            (buildMarginLastDay [fun _ => 3] (fun _ => 2) ["fund2", "fund3"])).getD 0)).sum) := by
  have h := serialized_total_is_rowwise_sum [fun _ => 3] ["fund2", "fund3"]
    (fun _ => 2) (by decide) (by decide)
  exact ⟨h.1, h.2 (fun _ => 3) rfl⟩

/-- Embedding of `current_drawdown`
(api/metrics/performance_metrics/calculations/drawdown.py, lines 10-12):
`(live - peak) / peak` with a zero-peak guard returning `0.0`. -/
def currentDrawdown (live peak : ℚ) : ℚ :=
  if peak ≠ 0 then (live - peak) / peak else 0

/-- Last value of the running maximum of a nonempty series
(`series.cummax().iloc[-1]`), given as head plus tail. -/
def peakOf (h : ℚ) (t : List ℚ) : ℚ := t.foldl max h

/-- Per-account realized current drawdown from `_current_dd_block`
(api/metrics/performance_metrics/performance_metrics.py, lines 246-253):
`peak_a = fixed[a].cummax().iloc[-1]`,
`live_a = fixed.loc[last_ts, a] + up_map.get(a, 0.0)`,
`(live_a - peak_a) / peak_a if peak_a else 0.0`; the empty-frame branch
yields `0.0`. -/
def currentDDRealizedAcc (series : List ℚ) (upnl : ℚ) : ℚ :=
  match series with
  | [] => 0
  | h :: t =>
    if peakOf h t ≠ 0 then ((t.getLastD h + upnl) - peakOf h t) / peakOf h t else 0

/-- Per-account all-time realized current drawdown from
`compute_all_time_max_current_dd`
(api/metrics/performance_metrics/calculations/all_time_dd.py,
lines 107-139): `current_drawdown(live_a, peak_a) if peak_a else 0.0`
with the same peak/live sourcing. -/
def currentDDAllTimeAcc (series : List ℚ) (upnl : ℚ) : ℚ :=
  match series with
  | [] => 0
  | h :: t =>
    if peakOf h t ≠ 0 then currentDrawdown (t.getLastD h + upnl) (peakOf h t) else 0

theorem le_foldl_max_init (t : List ℚ) (h : ℚ) : h ≤ t.foldl max h := by
  induction t generalizing h with
  | nil => exact le_refl h
  | cons b t ih => exact le_trans (le_max_left h b) (ih (max h b))

theorem le_foldl_max_of_mem (t : List ℚ) (h x : ℚ) (hx : x ∈ t) :
    x ≤ t.foldl max h := by
  induction t generalizing h with
  | nil => exact absurd hx (List.not_mem_nil x)
  | cons b t ih =>
    rcases List.mem_cons.mp hx with rfl | hxt
    · exact le_trans (le_max_right h x) (le_foldl_max_init t (max h x))
    · exact ih (max h b) hxt

theorem foldl_max_mem (t : List ℚ) (h : ℚ) :
    t.foldl max h = h ∨ t.foldl max h ∈ t := by
  induction t generalizing h with
  | nil => exact Or.inl rfl
  | cons b t ih =>
    rcases ih (max h b) with heq | hmem
    · rcases max_choice h b with hc | hc
      · exact Or.inl (heq.trans hc)
      · exact Or.inr (List.mem_cons.mpr (Or.inl (heq.trans hc)))
    · exact Or.inr (List.mem_cons.mpr (Or.inr hmem))

/-- C5: the current drawdown uses an asymmetric sourcing rule — the peak
is the running maximum of the realized level series with no live
injection (it is attained by, and bounds, the series values themselves),
while the numerator's current value is the last realized level plus the
live unrealized PnL; a zero peak yields drawdown `0.0`.  The inline
`_current_dd_block` formula and the `all_time_dd` path through
`current_drawdown` agree. -/
theorem current_dd_asymmetric_sourcing (h : ℚ) (t : List ℚ) (u : ℚ) :
    (peakOf h t ∈ h :: t ∧ ∀ x ∈ h :: t, x ≤ peakOf h t) ∧
    (peakOf h t ≠ 0 →
      currentDDRealizedAcc (h :: t) u
        = ((t.getLastD h + u) - peakOf h t) / peakOf h t) ∧
    (peakOf h t = 0 → currentDDRealizedAcc (h :: t) u = 0) ∧
    currentDDAllTimeAcc (h :: t) u = currentDDRealizedAcc (h :: t) u := by
  refine ⟨⟨?_, ?_⟩, ?_, ?_, ?_⟩
  · rcases foldl_max_mem t h with heq | hmem
    · exact List.mem_cons.mpr (Or.inl heq)
    · exact List.mem_cons.mpr (Or.inr hmem)
  · intro x hx
    rcases List.mem_cons.mp hx with rfl | hxt
    · exact le_foldl_max_init t x
    · exact le_foldl_max_of_mem t h x hxt
  · intro hpk
    simp [currentDDRealizedAcc, hpk]
  · intro hpk
    simp [currentDDRealizedAcc, hpk]
  · by_cases hpk : peakOf h t = 0
    · simp [currentDDRealizedAcc, currentDDAllTimeAcc, hpk]
    · simp [currentDDRealizedAcc, currentDDAllTimeAcc, currentDrawdown, hpk]

/-- Concrete instantiations of `current_dd_asymmetric_sourcing`: series
`[10, 5]` with UPnL `2` (nonzero peak `10`), and the all-zero series
(peak `0`, drawdown `0`). -/
theorem current_dd_asymmetric_sourcing_witness :
    peakOf 10 [5] ∈ [(10 : ℚ), 5] ∧
    (5 : ℚ) ≤ peakOf 10 [5] ∧
    currentDDRealizedAcc [10, 5] 2 = ((5 + 2) - 10) / 10 ∧
    currentDDRealizedAcc [0, 0] 2 = 0 := by
  have h1 := current_dd_asymmetric_sourcing 10 [5] 2
  have h2 := current_dd_asymmetric_sourcing 0 [0] 2
  refine ⟨h1.1.1, h1.1.2 5 (by simp), ?_, h2.2.2.1 (by decide)⟩
  have := h1.2.1 (by decide)
  simpa [peakOf] using this

/-- Embedding of `_streak_from_series`
(api/metrics/performance_metrics/calculations/losing_days.py,
lines 45-70) and of the equivalent `_current_losing_streak_tail`
(api_test/calculations/performance_metrics/losing_streaks.py,
lines 60-96, with its default `include_zero=False`,
`ignore_trailing_zero=True`): a daily series is a list of
(day label, net PnL) pairs; walk from the end skipping entries with
`|v| ≤ eps`, then count consecutive entries with `v < -eps`; the tail is
the slice `daily.iloc[start - streak + 1 : start + 1]` of exactly the
counted days.  The index walk is rendered as reverse / dropWhile /
takeWhile. -/
def streakFromSeries (daily : List (ℤ × ℚ)) (eps : ℚ) : ℕ × List (ℤ × ℚ) :=
  let rest := daily.reverse.dropWhile (fun p => decide (|p.2| ≤ eps))
  let run := rest.takeWhile (fun p => decide (p.2 < -eps))
  (run.length, run.reverse)

theorem streakFromSeries_snd (daily : List (ℤ × ℚ)) (eps : ℚ) :
    (streakFromSeries daily eps).2
      = ((daily.reverse.dropWhile (fun p => decide (|p.2| ≤ eps))).takeWhile
          (fun p => decide (p.2 < -eps))).reverse := rfl

/-- C7: the losing-streak computation skips trailing days within
`eps` of zero, counts consecutive days with `netPnL < -eps` backwards
from the last non-trivial day, and returns that count together with the
map of exactly the streak days: the count equals the tail length, every
tail day is a strict loss, the tail is followed in the series only by
the skipped near-zero days, and on complete days
`[+5, -3, -2, 0]` (eps = 1e-9) the result is streak 2 with days
`{day2 ↦ -3, day3 ↦ -2}`. -/
theorem losing_streak_skip_and_count :
    (∀ (daily : List (ℤ × ℚ)) (eps : ℚ),
      (streakFromSeries daily eps).1 = (streakFromSeries daily eps).2.length) ∧
    (∀ (daily : List (ℤ × ℚ)) (eps : ℚ) (p : ℤ × ℚ),
      p ∈ (streakFromSeries daily eps).2 → p.2 < -eps) ∧
    (∀ (daily : List (ℤ × ℚ)) (eps : ℚ),
      ∃ pre suf, daily = pre ++ (streakFromSeries daily eps).2 ++ suf ∧
        ∀ p ∈ suf, |p.2| ≤ eps) ∧
    streakFromSeries [(1, 5), (2, -3), (3, -2), (4, 0)] (1 / 1000000000)
      = (2, [(2, -3), (3, -2)]) := by
  refine ⟨?_, ?_, ?_,
    by norm_num [streakFromSeries, List.dropWhile, List.takeWhile]⟩
  · intro daily eps
    simp [streakFromSeries]
  · intro daily eps p hp
    rw [streakFromSeries_snd] at hp
    have := List.mem_takeWhile_imp (List.mem_reverse.mp hp)
    exact of_decide_eq_true this
  · intro daily eps
    refine ⟨((daily.reverse.dropWhile (fun p => decide (|p.2| ≤ eps))).dropWhile
        (fun p => decide (p.2 < -eps))).reverse,
      (daily.reverse.takeWhile (fun p => decide (|p.2| ≤ eps))).reverse, ?_, ?_⟩
    · rw [streakFromSeries_snd]
      conv_lhs => rw [← List.reverse_reverse daily]
      conv_lhs =>
        rw [← List.takeWhile_append_dropWhile
          (p := fun p => decide (|p.2| ≤ eps)) (l := daily.reverse)]
        rw [← List.takeWhile_append_dropWhile
          (p := fun p => decide (p.2 < -eps))
          (l := daily.reverse.dropWhile (fun p => decide (|p.2| ≤ eps)))]
      rw [List.reverse_append, List.reverse_append, List.append_assoc]
    · intro p hp
      have := List.mem_takeWhile_imp (List.mem_reverse.mp hp)
      exact of_decide_eq_true this

/-- Concrete instantiation of `losing_streak_skip_and_count`: on the
example series, the day `(2, -3)` belongs to the returned tail and is a
strict loss. -/
theorem losing_streak_skip_and_count_witness :
    ((-3 : ℚ)) < -(1 / 1000000000) :=
  losing_streak_skip_and_count.2.1
    [(1, 5), (2, -3), (3, -2), (4, 0)] (1 / 1000000000) (2, -3)
    (by norm_num [streakFromSeries, List.dropWhile, List.takeWhile])

/-- Wall-clock timestamps are rationals measured in hours; `normalizeTs`
is pandas `Timestamp.normalize()`, midnight of the day containing `now`. -/
def normalizeTs (now : ℚ) : ℚ := 24 * (⌊now / 24⌋ : ℚ)

/-- Embedding of `_last_complete_label`
(api/metrics/performance_metrics/calculations/losing_days.py,
lines 83-98): `today = now.normalize()`,
`today_cut = today + day_start_hour`; if `now ≥ today_cut` the label is
`today - 1 day`, else `today - 2 days` (one day = 24 hours here). -/
def lastCompleteLabel (now dayStartHour : ℚ) : ℚ :=
  if now ≥ normalizeTs now + dayStartHour then normalizeTs now - 24
  else normalizeTs now - 48

/-- pandas `date_range(s, e, freq="D")`: the days `s, s+1d, …` not
exceeding `e` (empty when `e < s`). -/
def dateRangeDays (s e : ℚ) : List ℚ :=
  if e < s then []
  else (List.range (⌊(e - s) / 24⌋.toNat + 1)).map (fun i : ℕ => s + 24 * (i : ℚ))

/-- Index allowed by `losing_days_mtd`
(api/metrics/performance_metrics/calculations/losing_days.py,
lines 101-118): nothing when the last complete label precedes the month
start, otherwise `date_range(start_day, last_complete)` — days after the
label are never part of the index. -/
def losingDaysIdx (startDay lastComplete : ℚ) : List ℚ :=
  if lastComplete < startDay then [] else dateRangeDays startDay lastComplete

theorem dateRangeDays_le (s e : ℚ) : ∀ d ∈ dateRangeDays s e, d ≤ e := by
  intro d hd
  unfold dateRangeDays at hd
  by_cases hes : e < s
  · rw [if_pos hes] at hd
    exact absurd hd (List.not_mem_nil d)
  · rw [if_neg hes] at hd
    rcases List.mem_map.mp hd with ⟨i, hir, rfl⟩
    have hi : i < ⌊(e - s) / 24⌋.toNat + 1 := List.mem_range.mp hir
    have hx : (0 : ℚ) ≤ (e - s) / 24 :=
      div_nonneg (by linarith [le_of_not_lt hes]) (by norm_num)
    have hfl : (0 : ℤ) ≤ ⌊(e - s) / 24⌋ := Int.floor_nonneg.mpr hx
    have hi' : (i : ℤ) ≤ ⌊(e - s) / 24⌋ := by omega
    have h2 : (i : ℚ) ≤ ((⌊(e - s) / 24⌋ : ℤ) : ℚ) := by exact_mod_cast hi'
    have h3 : ((⌊(e - s) / 24⌋ : ℤ) : ℚ) ≤ (e - s) / 24 := Int.floor_le _
    have h4 : (i : ℚ) ≤ (e - s) / 24 := le_trans h2 h3
    linarith

/-- C8: under cut-over hour `H`, the last complete day label is
`today - 1 day` when `now ≥ today@H` and `today - 2 days` otherwise, and
every day of the streak-computation index is bounded by that label —
days after it are excluded from the index entirely, not zero-filled. -/
theorem last_complete_day_cutover (now H startDay : ℚ) :
    (now - normalizeTs now ≥ H →
      lastCompleteLabel now H = normalizeTs now - 24) ∧
    (now - normalizeTs now < H →
      lastCompleteLabel now H = normalizeTs now - 48) ∧
    (∀ d ∈ losingDaysIdx startDay (lastCompleteLabel now H),
      d ≤ lastCompleteLabel now H) := by
  refine ⟨?_, ?_, ?_⟩
  · intro hH
    have : now ≥ normalizeTs now + H := by linarith
    simp [lastCompleteLabel, this]
  · intro hH
    have : ¬ now ≥ normalizeTs now + H := by
      intro hc
      linarith
    simp [lastCompleteLabel, this]
  · intro d hd
    unfold losingDaysIdx at hd
    by_cases hlt : lastCompleteLabel now H < startDay
    · simp [hlt] at hd
    · simp only [hlt, if_false] at hd
      exact dateRangeDays_le startDay (lastCompleteLabel now H) d hd

/-- Concrete instantiations of `last_complete_day_cutover`: at 08:00 on
day 1 (now = 32h, H = 8) the label is day 0; at 06:00 on day 1
(now = 30h) the label is day -1; and with start 0 and label 0 the single
index day 0 is bounded by the label. -/
theorem last_complete_day_cutover_witness :
    lastCompleteLabel 32 8 = 0 ∧
    lastCompleteLabel 30 8 = -24 ∧
    (0 : ℚ) ≤ lastCompleteLabel 32 8 := by
  have hn32 : normalizeTs 32 = 24 := by
    rw [normalizeTs]
    norm_num
  have hn30 : normalizeTs 30 = 24 := by
    rw [normalizeTs]
    norm_num
  have h32 := (last_complete_day_cutover 32 8 0).1 (by rw [hn32]; norm_num)
  have h30 := (last_complete_day_cutover 30 8 0).2.1 (by rw [hn30]; norm_num)
  have hmem := (last_complete_day_cutover 32 8 0).2.2 0
    (by
      rw [h32, hn32]
      norm_num [losingDaysIdx, dateRangeDays])
  refine ⟨by rw [h32, hn32]; norm_num, by rw [h30, hn30]; norm_num, hmem⟩

/-- Decoded state of one account's `{account}_live` cache value as seen
by `_decode` / `_sum_unrealized` (api/db/redis.py, lines 13-42):
`missing` is a `None` or undecodable reply, `malformed` is unparsable
JSON or a frame without an `unrealizedProfit` column, `payload xs`
carries the numeric `unrealizedProfit` column (non-numeric cells already
coerced to `0` by `to_numeric(...).fillna(0.0)`). -/
inductive CacheVal where
  | missing
  | malformed
  | payload (xs : List ℚ)
deriving DecidableEq

/-- `_sum_unrealized`: sum the `unrealizedProfit` column, `0.0` for
missing or malformed data. -/
def sumUnrealized : CacheVal → ℚ
  | .payload xs => xs.sum
  | _ => 0

/-- Embedding of `read_upnl` (api/db/redis.py, lines 68-93).  `raws` is
the normalized `r.mget(keys)` result: one entry per key in the normal
case, but possibly shorter — `_normalize_mget_result` returns `[]` for
unexpected shapes and the `except` branch supplies `[]` when the read
raises — and `zip(accounts, raws, strict=False)` silently truncates to
the shorter list. -/
def readUpnl (accounts : List String) (raws : List CacheVal) :
    List (String × ℚ) :=
  match accounts with
  | [] => [("total", 0)]  -- if not accounts: return {"total": 0.0}
  | a :: rest =>
    let out := ((a :: rest).zip raws).map (fun p => (p.1, sumUnrealized p.2))
    out ++ [("total", (out.map (fun p => p.2)).sum)]

theorem lookup_append_of_notMem_keys (l : List (String × ℚ)) (x : String)
    (hx : x ∉ l.map Prod.fst) (rest : List (String × ℚ)) :
    List.lookup x (l ++ rest) = List.lookup x rest := by
  induction l with
  | nil => rfl
  | cons q l ih =>
    have hq : x ≠ q.1 := fun h => hx (by simp [h])
    have hl : x ∉ l.map Prod.fst := fun h => hx (by simp [h])
    have hb : (x == q.1) = false := beq_eq_false_iff_ne.mpr hq
    simpa [List.lookup, hb] using ih hl

theorem lookup_of_mem_pairs (l : List (String × ℚ)) (p : String × ℚ)
    (hp : p ∈ l) (hN : (l.map Prod.fst).Nodup) (rest : List (String × ℚ)) :
    List.lookup p.1 (l ++ rest) = some p.2 := by
  induction l with
  | nil => exact absurd hp (List.not_mem_nil p)
  | cons q l ih =>
    rcases List.mem_cons.mp hp with rfl | hpl
    · simp [List.lookup]
    · have hcons := List.nodup_cons.mp
        (show (q.1 :: l.map Prod.fst).Nodup from hN)
      have hne : p.1 ≠ q.1 := by
        intro h
        exact hcons.1 (h ▸ List.mem_map.mpr ⟨p, hpl, rfl⟩)
      have hb : (p.1 == q.1) = false := beq_eq_false_iff_ne.mpr hne
      simpa [List.lookup, hb] using ih hpl hcons.2

/-- C9 counterexample: when the batched cache read degenerates to `[]`
(the `except` branch of `read_upnl`, or `_normalize_mget_result` on an
unexpected shape), `zip(..., strict=False)` drops every account, so the
returned map holds no entry at all for the requested account `"fund2"` —
the claim's "a float entry for every requested account" fails. -/
theorem read_upnl_dropped_account_counterexample :
    List.lookup "fund2" (readUpnl ["fund2"] []) = none ∧
    readUpnl ["fund2"] [] = [("total", 0)] := by
  exact ⟨rfl, rfl⟩

/-- C9 (amended): provided the batched cache read yields one result per
requested account, `read_upnl` returns an entry for every requested
account — the entry being the parsed `unrealizedProfit` sum of that
account's cache value — plus a `"total"` entry equal to the sum of the
per-account entries; a missing or malformed cache value degrades to
`0.0` for its account without failing the call. -/
theorem read_upnl_entries_and_total
    (accounts : List String) (raws : List CacheVal)
    (hlen : raws.length = accounts.length)
    (hN : accounts.Nodup) (ht : "total" ∉ accounts) :
    (∀ a ∈ accounts, ∃ v : ℚ,
      List.lookup a (readUpnl accounts raws) = some v) ∧
    (∀ p ∈ accounts.zip raws,
      List.lookup p.1 (readUpnl accounts raws) = some (sumUnrealized p.2)) ∧
    (List.lookup "total" (readUpnl accounts raws)
      = some ((accounts.map
          (fun a => (List.lookup a (readUpnl accounts raws)).getD 0)).sum)) ∧
    sumUnrealized CacheVal.missing = 0 ∧
    sumUnrealized CacheVal.malformed = 0 := by
  match accounts with
  | [] =>
    refine ⟨?_, ?_, ?_, rfl, rfl⟩
    · intro a ha
      exact absurd ha (List.not_mem_nil a)
    · intro p hp
      exact absurd hp (List.not_mem_nil p)
    · simp [readUpnl, List.lookup]
  | a :: rest =>
    have hkeys : ((((a :: rest).zip raws).map
        (fun p => (p.1, sumUnrealized p.2))).map Prod.fst) = a :: rest := by
      rw [List.map_map]
      exact List.map_fst_zip (a :: rest) raws (le_of_eq hlen.symm)
    have hN' : ((((a :: rest).zip raws).map
        (fun p => (p.1, sumUnrealized p.2))).map Prod.fst).Nodup := by
      rw [hkeys]
      exact hN
    have hlook : ∀ p ∈ (a :: rest).zip raws,
        List.lookup p.1 (readUpnl (a :: rest) raws) = some (sumUnrealized p.2) := by
      intro p hp
      exact lookup_of_mem_pairs _ (p.1, sumUnrealized p.2)
        (List.mem_map.mpr ⟨p, hp, rfl⟩) hN' _
    refine ⟨?_, hlook, ?_, rfl, rfl⟩
    · intro x hx
      have hx' : x ∈ (((a :: rest).zip raws).map
          (fun p => (p.1, sumUnrealized p.2))).map Prod.fst := by
        rw [hkeys]
        exact hx
      rcases List.mem_map.mp hx' with ⟨q, hq, rfl⟩
      exact ⟨q.2, lookup_of_mem_pairs _ q hq hN' _⟩
    · have htk : "total" ∉ ((((a :: rest).zip raws).map
          (fun p => (p.1, sumUnrealized p.2))).map Prod.fst) := by
        rw [hkeys]
        exact ht
      have hstep : List.lookup "total" (readUpnl (a :: rest) raws)
          = some (((((a :: rest).zip raws).map
              (fun p => (p.1, sumUnrealized p.2))).map (fun p => p.2)).sum) := by
        calc List.lookup "total" (readUpnl (a :: rest) raws)
            = List.lookup "total"
                ((((a :: rest).zip raws).map (fun p => (p.1, sumUnrealized p.2)))
                  ++ [("total", ((((a :: rest).zip raws).map
                    (fun p => (p.1, sumUnrealized p.2))).map (fun p => p.2)).sum)]) := rfl
          _ = List.lookup "total"
                [("total", ((((a :: rest).zip raws).map
                  (fun p => (p.1, sumUnrealized p.2))).map (fun p => p.2)).sum)] :=
              lookup_append_of_notMem_keys _ "total" htk _
          _ = some (((((a :: rest).zip raws).map
                (fun p => (p.1, sumUnrealized p.2))).map (fun p => p.2)).sum) := by
              simp [List.lookup]
      rw [hstep]
      congr 1
      have hmapeq : (a :: rest).map
          (fun x => (List.lookup x (readUpnl (a :: rest) raws)).getD 0)
          = (((a :: rest).zip raws).map
              (fun p => (p.1, sumUnrealized p.2))).map (fun p => p.2) := by
        calc (a :: rest).map
              (fun x => (List.lookup x (readUpnl (a :: rest) raws)).getD 0)
            = (((((a :: rest).zip raws).map
                (fun p => (p.1, sumUnrealized p.2))).map Prod.fst).map
                (fun x => (List.lookup x (readUpnl (a :: rest) raws)).getD 0)) := by
              rw [hkeys]
          _ = (((a :: rest).zip raws).map (fun p => (p.1, sumUnrealized p.2))).map
                ((fun x => (List.lookup x (readUpnl (a :: rest) raws)).getD 0)
                  ∘ Prod.fst) := by
              rw [List.map_map]
          _ = (((a :: rest).zip raws).map
                (fun p => (p.1, sumUnrealized p.2))).map (fun p => p.2) := by
              refine List.map_congr_left fun q hq => ?_
              have hq' : List.lookup q.1 (readUpnl (a :: rest) raws) = some q.2 :=
                lookup_of_mem_pairs _ q hq hN' _
              simp [Function.comp, hq']
      rw [hmapeq]

/-- Concrete instantiation of `read_upnl_entries_and_total`: one account
with a missing cache value degrades to `0.0` and `total` is the sum of
the per-account entries. -/
theorem read_upnl_entries_and_total_witness :
    List.lookup "fund2" (readUpnl ["fund2"] [CacheVal.missing]) = some 0 ∧
    List.lookup "total" (readUpnl ["fund2"] [CacheVal.missing])
      = some ((["fund2"].map
          (fun a => (List.lookup a
            (readUpnl ["fund2"] [CacheVal.missing])).getD 0)).sum) := by
  have h := read_upnl_entries_and_total ["fund2"] [CacheVal.missing] rfl
    (List.nodup_singleton _) (by decide)
  exact ⟨h.2.1 ("fund2", CacheVal.missing) (by decide), h.2.2.1⟩

/-- Ledger event kinds as read by the SQL readers
(api_test/io/sql.py / api/db/sql.py): `trade` rows carry
`realizedPnl - commission`, `funding` is `incomeType = FUNDING_FEE`,
`transfer` is `incomeType = TRANSFER`, `earning` rows carry `rewards`,
and `other` is any other income type (never selected by a filter). -/
inductive EventKind where
  | trade
  | funding
  | transfer
  | earning
  | other
deriving DecidableEq

/-- One ledger event: timestamp in whole seconds (the SQL windows are
formatted to second precision), kind, dollar amount. -/
structure LedgerEvent where
  ts : ℤ
  kind : EventKind
  amount : ℚ
deriving DecidableEq

/-- Generic split of a filtered amount sum into two disjoint filters. -/
theorem filter_amount_sum_split (l : List LedgerEvent)
    (p q r : LedgerEvent → Bool)
    (hpq : ∀ e ∈ l, p e = (q e || r e))
    (hdisj : ∀ e ∈ l, ¬(q e = true ∧ r e = true)) :
    ((l.filter p).map (fun e => e.amount)).sum
      = ((l.filter q).map (fun e => e.amount)).sum
        + ((l.filter r).map (fun e => e.amount)).sum := by
  induction l with
  | nil => simp
  | cons e l ih =>
    have hpq' := hpq e (List.mem_cons_self e l)
    have hd' := hdisj e (List.mem_cons_self e l)
    have ihl := ih (fun x hx => hpq x (List.mem_cons_of_mem e hx))
      (fun x hx => hdisj x (List.mem_cons_of_mem e hx))
    cases hq : q e with
    | false =>
      cases hr : r e with
      | false =>
        have hp : p e = false := by rw [hpq', hq, hr]; rfl
        simp only [List.filter_cons, hp, hq, hr, Bool.false_eq_true, if_false]
        exact ihl
      | true =>
        have hp : p e = true := by rw [hpq', hq, hr]; rfl
        simp only [List.filter_cons, hp, hq, hr, Bool.false_eq_true, if_true,
          if_false, List.map_cons, List.sum_cons]
        rw [ihl]
        ring
    | true =>
      cases hr : r e with
      | false =>
        have hp : p e = true := by rw [hpq', hq, hr]; rfl
        simp only [List.filter_cons, hp, hq, hr, Bool.false_eq_true, if_true,
          if_false, List.map_cons, List.sum_cons]
        rw [ihl]
        ring
      | true => exact absurd ⟨hq, hr⟩ hd'

/-- The bridge-summable kinds of `_initial_balance_at_start`: trades,
TRANSFER, FUNDING_FEE, earnings — every kind except unselected income
types. -/
def bridgeKind : EventKind → Bool
  | .other => false
  | _ => true

/-- Embedding of the bridge branch of `_initial_balance_at_start`
(api_test/utils/sql_balances.py, lines 96-131), parameterized by the
chosen snapshot `(nearestVal, anchorTs)` from `_nearest_balance_before`.
If `anchor_ts >= start_ts` the snapshot value is returned directly;
otherwise the readers are called with the closed window
`[anchor_ts, start_ts - 1s]` (`WHERE time >= :start AND time <= :end`)
and the selected amounts are summed onto the snapshot value. -/
def initialBalanceAtStart (nearestVal : ℚ) (anchorTs : ℤ)
    (events : List LedgerEvent) (startTs : ℤ) : ℚ :=
  if startTs ≤ anchorTs then nearestVal
  else
    nearestVal
      + ((events.filter (fun e => bridgeKind e.kind
          && (decide (anchorTs ≤ e.ts) && decide (e.ts ≤ startTs - 1)))).map
        (fun e => e.amount)).sum

/-- The bridge sum exactly as the spec words it: amounts of events of the
four bridge kinds with timestamps in the half-open interval
`(snapshotTimestamp, asOf − 1 second]`, excluding the snapshot timestamp
itself. -/
def bridgeSumSpec (anchorTs startTs : ℤ) (events : List LedgerEvent) : ℚ :=
  ((events.filter (fun e => bridgeKind e.kind
      && (decide (anchorTs < e.ts) && decide (e.ts ≤ startTs - 1)))).map
    (fun e => e.amount)).sum

/-- C2 counterexample: snapshot `1000` at `anchorTs = 100`,
`asOf = 102`, and a single trade of `50` stamped exactly at the snapshot
timestamp `100`.  The code's closed window `[100, 101]` includes the
trade and returns `1050`, while the claim's half-open interval
`(100, 101]` excludes it and predicts `1000`. -/
theorem opening_balance_left_closed_counterexample :
    initialBalanceAtStart 1000 100 [⟨100, EventKind.trade, 50⟩] 102 = 1050 ∧
    (1000 : ℚ) + bridgeSumSpec 100 102 [⟨100, EventKind.trade, 50⟩] = 1000 ∧
    (1050 : ℚ) ≠ 1000 := by
  refine ⟨?_, ?_, by norm_num⟩
  · norm_num [initialBalanceAtStart, bridgeKind, List.filter]
  · norm_num [bridgeSumSpec, bridgeKind, List.filter]

/-- C2 (amended): the opening-balance resolver returns the snapshot
value directly whenever the chosen snapshot's timestamp is `≥ asOf`;
otherwise it returns the snapshot value plus the sum of
bridge-kind amounts over the closed interval
`[snapshotTimestamp, asOf − 1 second]` — equivalently, the spec's
half-open-interval sum plus the amounts of bridge-kind events stamped
exactly at the snapshot timestamp, which the code includes.  The bridge
kinds are exactly RealizedTrade, FundingFee, Earning and Transfer. -/
theorem opening_balance_bridge (nearestVal : ℚ) (anchorTs startTs : ℤ)
    (events : List LedgerEvent) :
    (startTs ≤ anchorTs →
      initialBalanceAtStart nearestVal anchorTs events startTs = nearestVal) ∧
    (anchorTs < startTs →
      initialBalanceAtStart nearestVal anchorTs events startTs
        = nearestVal + bridgeSumSpec anchorTs startTs events
          + ((events.filter (fun e => bridgeKind e.kind
              && decide (e.ts = anchorTs))).map (fun e => e.amount)).sum) ∧
    (bridgeKind EventKind.trade = true ∧ bridgeKind EventKind.funding = true ∧
      bridgeKind EventKind.earning = true ∧ bridgeKind EventKind.transfer = true ∧
      bridgeKind EventKind.other = false) := by
  refine ⟨?_, ?_, by decide⟩
  · intro h
    simp [initialBalanceAtStart, h]
  · intro h
    have hnot : ¬ startTs ≤ anchorTs := not_le.mpr h
    rw [initialBalanceAtStart, if_neg hnot, bridgeSumSpec]
    rw [filter_amount_sum_split events
      (fun e => bridgeKind e.kind
        && (decide (anchorTs ≤ e.ts) && decide (e.ts ≤ startTs - 1)))
      (fun e => bridgeKind e.kind
        && (decide (anchorTs < e.ts) && decide (e.ts ≤ startTs - 1)))
      (fun e => bridgeKind e.kind && decide (e.ts = anchorTs))
      ?_ ?_]
    · ring
    · intro e _
      beta_reduce
      by_cases heq : e.ts = anchorTs
      · have h1 : (decide (anchorTs ≤ e.ts)) = true := decide_eq_true (by omega)
        have h2 : (decide (e.ts ≤ startTs - 1)) = true := decide_eq_true (by omega)
        have h3 : (decide (anchorTs < e.ts)) = false := decide_eq_false (by omega)
        have h4 : (decide (e.ts = anchorTs)) = true := decide_eq_true heq
        rw [h1, h2, h3, h4]
        cases bridgeKind e.kind <;> rfl
      · have h4 : (decide (e.ts = anchorTs)) = false := decide_eq_false heq
        have h14 : (decide (anchorTs ≤ e.ts)) = (decide (anchorTs < e.ts)) := by
          by_cases hle : anchorTs ≤ e.ts
          · rw [decide_eq_true hle, decide_eq_true (show anchorTs < e.ts by omega)]
          · rw [decide_eq_false hle, decide_eq_false (show ¬ anchorTs < e.ts by omega)]
        rw [h4, h14]
        cases bridgeKind e.kind <;> cases decide (anchorTs < e.ts) <;>
          cases decide (e.ts ≤ startTs - 1) <;> rfl
    · intro e _
      rintro ⟨h1, h2⟩
      simp only [Bool.and_eq_true, decide_eq_true_eq] at h1 h2
      omega

/-- Concrete instantiations of `opening_balance_bridge`: the skip edge
(`anchorTs = asOf`) and the counterexample input with its spec/boundary
decomposition. -/
theorem opening_balance_bridge_witness :
    initialBalanceAtStart 1000 100 [] 100 = 1000 ∧
    initialBalanceAtStart 1000 100 [⟨100, EventKind.trade, 50⟩] 102
      = 1000 + bridgeSumSpec 100 102 [⟨100, EventKind.trade, 50⟩]
        + (([(⟨100, EventKind.trade, 50⟩ : LedgerEvent)].filter
            (fun e => bridgeKind e.kind && decide (e.ts = 100))).map
          (fun e => e.amount)).sum := by
  have h1 := (opening_balance_bridge 1000 100 100 []).1 (le_refl 100)
  have h2 := (opening_balance_bridge 1000 100 102
    [⟨100, EventKind.trade, 50⟩]).2.1 (by omega)
  exact ⟨h1, h2⟩

/-- Kinds summed by `_daily_pnl`
(api/metrics/performance_metrics/calculations/equity.py, lines 12-28):
trades, FUNDING_FEE and earnings; TRANSFER is excluded by design, and
other income types are never selected. -/
def dailyPnlKind : EventKind → Bool
  | .trade => true
  | .funding => true
  | .earning => true
  | _ => false

/-- Calendar-day bucket of a timestamp in seconds (`resample("D")`),
flooring like pandas does. -/
def dayOf (ts : ℤ) : ℤ := Int.fdiv ts 86400

/-- One bucket of `_daily_pnl(...)`: the summed amounts of the included
kinds on day `d`. -/
def dailyPnlAt (events : List LedgerEvent) (d : ℤ) : ℚ :=
  ((events.filter (fun e => dailyPnlKind e.kind
      && decide (dayOf e.ts = d))).map (fun e => e.amount)).sum

/-- Value of `daily.reindex(idx).fillna(0.0).cumsum()`
(`build_fixed_balances`, equity.py lines 44-71) at the `(n+1)`-th day of
the window starting at `startDay`. -/
def realizedCumAt (events : List LedgerEvent) (startDay : ℤ) (n : ℕ) : ℚ :=
  ((List.range (n + 1)).map
    (fun i : ℕ => dailyPnlAt events (startDay + (i : ℤ)))).sum

/-- The ledger rows of
`_build_post_start_ledger_daily_end_with_transfers`
(api_test/utils/sql_balances.py, lines 134-185) paired with their
`running_balance = initial + cumsum(dollar_val)` — the cumulative sum
runs over ALL rows, transfers included.  Input list is the time-sorted
ledger. -/
def runningBalances (init : ℚ) : List LedgerEvent → List (LedgerEvent × ℚ)
  | [] => []
  | e :: rest => (e, init + e.amount) :: runningBalances (init + e.amount) rest

/-- Day-end sampling of the same function: drop the transfer rows, then
take the last remaining `running_balance` of calendar day `d`
(`no_transfer["running_balance"].resample("D").last()`). -/
def dayEndNoTransfer (init : ℚ) (ledger : List LedgerEvent) (d : ℤ) :
    Option ℚ :=
  (((runningBalances init ledger).filter
      (fun p => decide (p.1.kind ≠ EventKind.transfer)
        && decide (dayOf p.1.ts = d))).map (fun p => p.2)).getLast?

/-- The running balance exactly as the claim words it:
`initialBalance + cumulativeSum(events with timestamp ≤ t, excluding
Transfer)`. -/
def specRunningBalance (init : ℚ) (events : List LedgerEvent) (t : ℤ) : ℚ :=
  init + ((events.filter (fun e => decide (e.kind ≠ EventKind.transfer)
      && decide (e.ts ≤ t))).map (fun e => e.amount)).sum

/-- Every entry of `runningBalances` is the initial value plus the
amounts of ALL preceding ledger rows (transfers included) plus its own
amount. -/
theorem runningBalances_prefix_sum (l : List LedgerEvent) (init : ℚ)
    (p : LedgerEvent × ℚ) (hp : p ∈ runningBalances init l) :
    ∃ pre suf, l = pre ++ p.1 :: suf ∧
      p.2 = init + (pre.map (fun e => e.amount)).sum + p.1.amount := by
  induction l generalizing init with
  | nil => exact absurd hp (List.not_mem_nil p)
  | cons e rest ih =>
    rcases List.mem_cons.mp hp with rfl | hmem
    · exact ⟨[], rest, rfl, by simp⟩
    · rcases ih (init + e.amount) hmem with ⟨pre, suf, hl, hv⟩
      refine ⟨e :: pre, suf, by rw [hl]; rfl, ?_⟩
      rw [hv]
      simp only [List.map_cons, List.sum_cons]
      ring

/-- The reindexed cumulative sum of `_daily_pnl` buckets over the window
equals the filtered ledger sum up to each day, provided all events lie
at or after the window start (the readers fetch exactly the window). -/
theorem realizedCum_window (events : List LedgerEvent) (startDay : ℤ) (n : ℕ)
    (hwin : ∀ e ∈ events, startDay ≤ dayOf e.ts) :
    realizedCumAt events startDay n
      = ((events.filter (fun e => dailyPnlKind e.kind
          && decide (dayOf e.ts ≤ startDay + (n : ℤ)))).map
        (fun e => e.amount)).sum := by
  induction n with
  | zero =>
    have h1 : realizedCumAt events startDay 0 = dailyPnlAt events startDay := by
      rw [realizedCumAt, show List.range (0 + 1) = [0] from rfl]
      norm_num
    rw [h1, dailyPnlAt]
    congr 1
    refine congrArg _ (List.filter_congr fun e he => ?_)
    have hw := hwin e he
    by_cases hd : dayOf e.ts = startDay
    · rw [decide_eq_true hd, decide_eq_true (show dayOf e.ts ≤ startDay + ((0 : ℕ) : ℤ) by omega)]
    · rw [decide_eq_false hd,
        decide_eq_false (show ¬ dayOf e.ts ≤ startDay + ((0 : ℕ) : ℤ) by omega)]
  | succ n ih =>
    have hstep : realizedCumAt events startDay (n + 1)
        = realizedCumAt events startDay n
          + dailyPnlAt events (startDay + ((n : ℤ) + 1)) := by
      rw [realizedCumAt, realizedCumAt, List.range_succ, List.map_append,
        List.sum_append]
      simp
    rw [hstep, ih]
    rw [filter_amount_sum_split events
      (fun e => dailyPnlKind e.kind
        && decide (dayOf e.ts ≤ startDay + ((n + 1 : ℕ) : ℤ)))
      (fun e => dailyPnlKind e.kind && decide (dayOf e.ts ≤ startDay + (n : ℤ)))
      (fun e => dailyPnlKind e.kind
        && decide (dayOf e.ts = startDay + (n : ℤ) + 1))
      ?_ ?_]
    · congr 1
      rw [dailyPnlAt]
      have harith : startDay + ((n : ℤ) + 1) = startDay + (n : ℤ) + 1 := by ring
      rw [harith]
    · intro e _
      beta_reduce
      by_cases hd : dayOf e.ts ≤ startDay + (n : ℤ)
      · rw [decide_eq_true hd,
          decide_eq_true (show dayOf e.ts ≤ startDay + ((n + 1 : ℕ) : ℤ) by push_cast; omega)]
        cases dailyPnlKind e.kind <;> cases decide (dayOf e.ts = startDay + (n : ℤ) + 1) <;> rfl
      · rw [decide_eq_false hd]
        by_cases he1 : dayOf e.ts = startDay + (n : ℤ) + 1
        · rw [decide_eq_true he1,
            decide_eq_true (show dayOf e.ts ≤ startDay + ((n + 1 : ℕ) : ℤ) by push_cast; omega)]
          cases dailyPnlKind e.kind <;> rfl
        · rw [decide_eq_false he1,
            decide_eq_false (show ¬ dayOf e.ts ≤ startDay + ((n + 1 : ℕ) : ℤ) by push_cast; omega)]
          cases dailyPnlKind e.kind <;> rfl
    · intro e _
      rintro ⟨h1, h2⟩
      simp only [Bool.and_eq_true, decide_eq_true_eq] at h1 h2
      omega

/-- Evaluation of the sql_balances day-end builder on the transfer-leak
ledger: the transfer's amount stays in the sampled running balance. -/
theorem dayEnd_leak_eval :
    dayEndNoTransfer 0
        [⟨0, EventKind.transfer, 100⟩, ⟨3600, EventKind.trade, 5⟩] 0
      = some 105 := by
  have h1 : (decide ((EventKind.transfer : EventKind) ≠ EventKind.transfer))
      = false := rfl
  have h2 : (decide ((EventKind.trade : EventKind) ≠ EventKind.transfer))
      = true := rfl
  have h3 : (decide (dayOf 0 = (0 : ℤ))) = true := rfl
  have h4 : (decide (dayOf 3600 = (0 : ℤ))) = true := rfl
  norm_num [dayEndNoTransfer, runningBalances, List.filter, List.getLast?,
    List.getLast_singleton, h1, h2, h3, h4]

/-- C3 counterexample: ledger `[transfer +100 @ t=0, trade +5 @ t=3600]`
with initial balance `0`.  The sql_balances day-end builder keeps the
transfer's amount in the running balance and reports `105` for day 0,
while the claim's transfer-free running balance at `t = 3600` is `5`. -/
theorem realized_transfer_leak_counterexample :
    dayEndNoTransfer 0
        [⟨0, EventKind.transfer, 100⟩, ⟨3600, EventKind.trade, 5⟩] 0
      = some 105 ∧
    specRunningBalance 0
        [⟨0, EventKind.transfer, 100⟩, ⟨3600, EventKind.trade, 5⟩] 3600
      = 5 ∧
    (105 : ℚ) ≠ 5 := by
  refine ⟨dayEnd_leak_eval, ?_, by norm_num⟩
  have h1 : (decide ((EventKind.transfer : EventKind) ≠ EventKind.transfer))
      = false := rfl
  have h2 : (decide ((EventKind.trade : EventKind) ≠ EventKind.transfer))
      = true := rfl
  have h3 : (decide ((0 : ℤ) ≤ 3600)) = true := rfl
  have h4 : (decide ((3600 : ℤ) ≤ 3600)) = true := rfl
  norm_num [specRunningBalance, List.filter, h1, h2, h3, h4]

/-- C3 (amended): in the equity-module path the realized cumulative
series equals the initial-anchored sum of non-transfer events up to each
day — Transfer (and unselected income kinds) never contribute there; but
in the sql_balances day-end path only the transfer *rows* are dropped
from the daily sampling: each sampled day-end balance is the initial
value plus the amounts of ALL preceding ledger rows — transfers
included — plus the sampled row's own amount. -/
theorem realized_series_transfer_handling :
    (dailyPnlKind EventKind.trade = true ∧
      dailyPnlKind EventKind.funding = true ∧
      dailyPnlKind EventKind.earning = true ∧
      dailyPnlKind EventKind.transfer = false ∧
      dailyPnlKind EventKind.other = false) ∧
    (∀ (events : List LedgerEvent) (startDay : ℤ) (n : ℕ),
      (∀ e ∈ events, startDay ≤ dayOf e.ts) →
      realizedCumAt events startDay n
        = ((events.filter (fun e => dailyPnlKind e.kind
            && decide (dayOf e.ts ≤ startDay + (n : ℤ)))).map
          (fun e => e.amount)).sum) ∧
    (∀ (init : ℚ) (l : List LedgerEvent) (d : ℤ) (v : ℚ),
      dayEndNoTransfer init l d = some v →
      ∃ pre e suf, l = pre ++ e :: suf ∧
        e.kind ≠ EventKind.transfer ∧ dayOf e.ts = d ∧
        v = init + (pre.map (fun x => x.amount)).sum + e.amount) := by
  refine ⟨by decide, realizedCum_window, ?_⟩
  intro init l d v hv
  have hvm : v ∈ ((runningBalances init l).filter
      (fun p => decide (p.1.kind ≠ EventKind.transfer)
        && decide (dayOf p.1.ts = d))).map (fun p => p.2) := by
    have h2 := List.mem_getLast?_eq_getLast
      (show v ∈ (((runningBalances init l).filter
        (fun p => decide (p.1.kind ≠ EventKind.transfer)
          && decide (dayOf p.1.ts = d))).map (fun p => p.2)).getLast? by
        rw [Option.mem_def]; exact hv)
    rcases h2 with ⟨hne, rfl⟩
    exact List.getLast_mem hne
  rcases List.mem_map.mp hvm with ⟨p, hpf, rfl⟩
  have hmem := (List.mem_filter.mp hpf).1
  have hcond := (List.mem_filter.mp hpf).2
  simp only [Bool.and_eq_true, decide_eq_true_eq] at hcond
  rcases runningBalances_prefix_sum l init p hmem with ⟨pre, suf, hl, hval⟩
  exact ⟨pre, p.1, suf, hl, hcond.1, hcond.2, hval⟩

/-- Concrete instantiations of `realized_series_transfer_handling`: the
equity-path window theorem on a one-trade ledger, and the sql-path
decomposition at the transfer-leak input. -/
theorem realized_series_transfer_handling_witness :
    realizedCumAt [⟨3600, EventKind.trade, 5⟩] 0 0
      = (([(⟨3600, EventKind.trade, 5⟩ : LedgerEvent)].filter
          (fun e => dailyPnlKind e.kind
            && decide (dayOf e.ts ≤ 0 + ((0 : ℕ) : ℤ)))).map
        (fun e => e.amount)).sum ∧
    (∃ pre e suf,
      [(⟨0, EventKind.transfer, 100⟩ : LedgerEvent),
        ⟨3600, EventKind.trade, 5⟩] = pre ++ e :: suf ∧
      e.kind ≠ EventKind.transfer ∧ dayOf e.ts = 0 ∧
      (105 : ℚ) = 0 + (pre.map (fun x => x.amount)).sum + e.amount) := by
  constructor
  · exact realized_series_transfer_handling.2.1
      [⟨3600, EventKind.trade, 5⟩] 0 0
      (by
        intro e he
        rcases List.mem_singleton.mp he with rfl
        decide)
  · exact realized_series_transfer_handling.2.2 0
      [⟨0, EventKind.transfer, 100⟩, ⟨3600, EventKind.trade, 5⟩] 0 105
      dayEnd_leak_eval

/-- IEEE-754-flavoured value carrier for the pct-change computation:
finite value, NaN, +∞, −∞.  Signed zero is not modelled; the cases where
it would matter do not arise in `pct_returns` (inputs are finite). -/
inductive FVal where
  | fin (q : ℚ)
  | nan
  | inf
  | ninf
deriving DecidableEq

/-- IEEE subtraction on the carrier, restricted to the shapes
`pct_returns` produces: finite minus finite is exact, NaN propagates,
infinities behave as usual. -/
def FVal.sub : FVal → FVal → FVal
  | .fin a, .fin b => .fin (a - b)
  | .nan, _ => .nan
  | _, .nan => .nan
  | .inf, .inf => .nan
  | .inf, _ => .inf
  | .ninf, .ninf => .nan
  | .ninf, _ => .ninf
  | .fin _, .inf => .ninf
  | .fin _, .ninf => .inf

/-- IEEE division on the carrier: NaN propagates; a finite numerator
over a zero denominator gives NaN for `0/0` and ±∞ otherwise (numpy
emits `inf`/`-inf`/`nan`, not an exception, for float division by
zero). -/
def FVal.div : FVal → FVal → FVal
  | .nan, _ => .nan
  | _, .nan => .nan
  | .fin a, .fin b =>
    if b ≠ 0 then .fin (a / b)
    else if a = 0 then .nan
    else if a > 0 then .inf
    else .ninf
  | .inf, .fin b => if b < 0 then .ninf else .inf
  | .ninf, .fin b => if b < 0 then .inf else .ninf
  | _, .inf => .fin 0
  | _, .ninf => .fin 0

/-- pandas `isna`: true exactly on NaN (infinities are not NA). -/
def FVal.isna : FVal → Bool
  | .nan => true
  | _ => false

/-- Embedding of `pct_returns` on one column of finite levels
(api/metrics/performance_metrics/calculations/returns.py, lines 10-14,
identical in api/utils/metrics.py, lines 16-25):
`prev = balance.shift(1)` (first entry missing, i.e. NaN),
`out = (balance - prev) / prev`, then `out.where(~out.isna(), 0.0)`
replaces exactly the NaN cells by `0.0` — infinities pass through. -/
def pctReturnsCol (xs : List ℚ) : List FVal :=
  (List.zipWith (fun x p => FVal.div (FVal.sub x p) p)
      (xs.map FVal.fin) (FVal.nan :: xs.dropLast.map FVal.fin)).map
    (fun v => if v.isna then FVal.fin 0 else v)

/-- Latest `year*100 + month` tag of a column frame
(`_latest_year_month` / `ym.max()`). -/
def latestYM (h : ℤ × ℚ) (t : List (ℤ × ℚ)) : ℤ :=
  (t.map Prod.fst).foldl max h.1

/-- Embedding of `mtd_return` on one column
(api/metrics/performance_metrics/calculations/returns.py, lines 17-34):
rows are (year*100+month, level) pairs; restrict to the latest month,
take its first and last levels, return `(last - first) / first`, or `0`
when the first level is `0`; `none` models the absent dict entry for an
empty frame (the inner `[]` branch is unreachable since the maximum is
attained). -/
def mtdReturnCol : List (ℤ × ℚ) → Option ℚ
  | [] => none
  | h :: t =>
    match (h :: t).filter (fun p => decide (p.1 = latestYM h t)) with
    | [] => none
    | m :: ms =>
      some (if m.2 ≠ 0 then ((ms.getLastD m).2 - m.2) / m.2 else 0)

/-- C4 counterexample: on the level series `[0, 5]` the denominator of
the second return is `0.0` with a nonzero numerator, and `pct_returns`
emits `+Inf` — `out.where(~out.isna(), 0.0)` only replaces NaN, and
`inf` is not NA — contradicting "yields 0.0, never +Inf". -/
theorem pct_returns_inf_counterexample :
    pctReturnsCol [0, 5] = [FVal.fin 0, FVal.inf] ∧
    FVal.inf ≠ FVal.fin 0 := by
  constructor
  · norm_num [pctReturnsCol, FVal.sub, FVal.div, FVal.isna]
  · intro h
    exact FVal.noConfusion h

/-- C4 (amended): `pct_returns` replaces exactly the NaN cells by `0.0`:
the first row is always `0.0` and no NaN ever survives, and for a
position with previous value `p` and current value `x` the output is
`(x − p)/p` when `p ≠ 0`, `0.0` when `p = 0 ∧ x = 0` (the `0/0` NaN is
mapped to `0.0`), but `+Inf`/`−Inf` when `p = 0 ∧ x ≠ 0`; `mtd_return`
does yield `0.0` for a column whose first value in the latest month is
exactly `0.0`. -/
theorem pct_returns_zero_handling :
    (∀ xs : List ℚ, xs ≠ [] →
      (pctReturnsCol xs).get? 0 = some (FVal.fin 0)) ∧
    (∀ (xs : List ℚ) (v : FVal), v ∈ pctReturnsCol xs → v ≠ FVal.nan) ∧
    (∀ (xs : List ℚ) (i : ℕ) (hi1 : i + 1 < xs.length) (hi : i < xs.length),
      (pctReturnsCol xs).get? (i + 1)
        = some (if xs.get ⟨i, hi⟩ ≠ 0
            then FVal.fin ((xs.get ⟨i + 1, hi1⟩ - xs.get ⟨i, hi⟩)
              / xs.get ⟨i, hi⟩)
            else if xs.get ⟨i + 1, hi1⟩ = 0 then FVal.fin 0
            else if xs.get ⟨i + 1, hi1⟩ > 0 then FVal.inf else FVal.ninf)) ∧
    (∀ (h : ℤ × ℚ) (t : List (ℤ × ℚ)) (m : ℤ × ℚ) (ms : List (ℤ × ℚ)),
      (h :: t).filter (fun p => decide (p.1 = latestYM h t)) = m :: ms →
      m.2 = 0 → mtdReturnCol (h :: t) = some 0) := by
  refine ⟨?_, ?_, ?_, ?_⟩
  · intro xs hxs
    match xs with
    | [] => exact absurd rfl hxs
    | x :: t => rfl
  · intro xs v hv
    rcases List.mem_map.mp hv with ⟨u, _, rfl⟩
    cases u <;> simp [FVal.isna]
  · intro xs i hi1 hi
    have hdl : i < xs.dropLast.length := by
      rw [List.length_dropLast]
      omega
    have hget : xs.dropLast.get ⟨i, hdl⟩ = xs.get ⟨i, hi⟩ := by
      simpa [List.get_eq_getElem] using List.getElem_dropLast xs i hdl
    have h1 : (xs.map FVal.fin).get? (i + 1)
        = some (FVal.fin (xs.get ⟨i + 1, hi1⟩)) := by
      rw [List.get?_map, List.get?_eq_get hi1]
      rfl
    have h2 : (FVal.nan :: xs.dropLast.map FVal.fin).get? (i + 1)
        = some (FVal.fin (xs.get ⟨i, hi⟩)) := by
      show (xs.dropLast.map FVal.fin).get? i = some (FVal.fin (xs.get ⟨i, hi⟩))
      rw [List.get?_map, List.get?_eq_get hdl, hget]
      rfl
    rw [pctReturnsCol, List.get?_map, List.get?_zipWith', h1, h2]
    simp only [Option.map_some', Option.bind_some]
    by_cases hp : xs.get ⟨i, hi⟩ = 0
    · rw [hp]
      by_cases hx : xs.get ⟨i + 1, hi1⟩ = 0
      · rw [hx]
        norm_num [FVal.sub, FVal.div, FVal.isna]
      · by_cases hxpos : xs.get ⟨i + 1, hi1⟩ > 0
        · simp only [List.get_eq_getElem] at hx hxpos
          simp [FVal.sub, FVal.div, FVal.isna, hx, hxpos, sub_zero]
        · simp only [List.get_eq_getElem] at hx hxpos
          simp [FVal.sub, FVal.div, FVal.isna, hx, hxpos, sub_zero]
    · simp only [List.get_eq_getElem] at hp
      simp [FVal.sub, FVal.div, FVal.isna, hp]
  · intro h t m ms hfilter hm0
    have hunfold : mtdReturnCol (h :: t)
        = match (h :: t).filter (fun p => decide (p.1 = latestYM h t)) with
          | [] => none
          | m :: ms =>
            some (if m.2 ≠ 0 then ((ms.getLastD m).2 - m.2) / m.2 else 0) := rfl
    rw [hunfold, hfilter]
    simp [hm0]

/-- Concrete instantiations of `pct_returns_zero_handling`: first row of
`pct_returns [0, 5]` is `0.0`; its `+Inf` cell is not NaN; the finite
case `[2, 3]` at position 1; and `mtd_return` on an October-2025 column
whose first value is `0`. -/
theorem pct_returns_zero_handling_witness :
    (pctReturnsCol [0, 5]).get? 0 = some (FVal.fin 0) ∧
    FVal.inf ≠ FVal.nan ∧
    (pctReturnsCol [2, 3]).get? 1
      = some (if (2 : ℚ) ≠ 0 then FVal.fin ((3 - 2) / 2)
          else if (3 : ℚ) = 0 then FVal.fin 0
          else if (3 : ℚ) > 0 then FVal.inf else FVal.ninf) ∧
    mtdReturnCol [(202510, 0), (202510, 7)] = some 0 := by
  have hparts := pct_returns_zero_handling
  refine ⟨hparts.1 [0, 5] (by simp), ?_, ?_, ?_⟩
  · exact hparts.2.1 [0, 5] FVal.inf
      (by norm_num [pctReturnsCol, FVal.sub, FVal.div, FVal.isna])
  · exact hparts.2.2.1 [2, 3] 0 (by norm_num) (by norm_num)
  · exact hparts.2.2.2 (202510, 0) [(202510, 7)] (202510, 0) [(202510, 7)]
      (by norm_num [latestYM, List.filter]) rfl

end AlgoforceAnalytics
